import Mathlib

/-!
Verification development for the weekly-adfree processing pipeline
(src/process.py).  The core pieces embedded here are:

* `NaiveBayes` with `mark_spam`, `mark_not_spam`, `check_spam`,
  `dump` and `load` (the word-statistics classifier);
* the interactive reinforcement loops of the `m` command
  (`mark_spam` followed by `while check_spam < 0: mark_spam`, and the
  symmetric not-spam loop);
* `filter_body` (section classification and retention);
* `sections_from_doc` (splitting a block list into header-led sections);
* the per-issue fingerprint gate of `proc_all` over the publish-record
  table; and
* `last_posts_append` (the bounded most-recent-feed selector).

External collaborators (pandoc parsing/rendering, jieba tokenisation,
file I/O) are abstracted: a section carries its block payload together
with the token lists the externals would produce for it.
-/

/-- The naive Bayes word-statistics model of `class NaiveBayes`:
per-word spam/non-spam occurrence counts plus the two training-event
totals.  A word absent from the Python dictionary behaves as the pair
`(0, 0)` everywhere (the `.get(w, (0, 0))` / `setdefault(w, [0, 0])`
pattern), so the counts are embedded as a total function. -/
structure NaiveBayes where
  counts : String → ℕ × ℕ
  spams : ℕ
  non_spams : ℕ

/-- The freshly constructed model `NaiveBayes()`: empty counts, zero totals. -/
def nbNew : NaiveBayes := ⟨fun _ => (0, 0), 0, 0⟩

/-- Embeds `NaiveBayes.mark_spam`: increment the spam total once and the
spam-occurrence count of every distinct word of the input. -/
def NaiveBayes.mark_spam (m : NaiveBayes) (word_list : List String) : NaiveBayes where
  counts := fun w =>
    if w ∈ word_list then ((m.counts w).1 + 1, (m.counts w).2) else m.counts w
  spams := m.spams + 1
  non_spams := m.non_spams

/-- Embeds `NaiveBayes.mark_not_spam`: the mirror image of `mark_spam`. -/
def NaiveBayes.mark_not_spam (m : NaiveBayes) (word_list : List String) : NaiveBayes where
  counts := fun w =>
    if w ∈ word_list then ((m.counts w).1, (m.counts w).2 + 1) else m.counts w
  spams := m.spams
  non_spams := m.non_spams + 1

/-- Embeds `NaiveBayes.check_spam` with `lmd = 1`: the signed log-odds
score.  The Python iteration over `set(word_list)` is embedded as a sum
over `word_list.dedup`; `l_ws` is the number of distinct words. -/
noncomputable def NaiveBayes.check_spam (m : NaiveBayes) (word_list : List String)
    (header_word_list : List String := []) (header_impact_multiplier : ℝ := 1) : ℝ :=
  Real.log ((m.spams + 1 : ℝ) / (m.non_spams + 1)) +
    (word_list.dedup.map (fun w =>
      let impact : ℝ := Real.log
        ((((m.counts w).1 + 1 : ℝ) / (m.spams + word_list.dedup.length)) /
          (((m.counts w).2 + 1 : ℝ) / (m.non_spams + word_list.dedup.length)))
      if w ∈ header_word_list then impact * header_impact_multiplier else impact)).sum

/-- The persisted snapshot record of the model, mirroring the dictionary
built by `NaiveBayes.dump` (`counts`, `spams`, `non_spams`). -/
structure NBSnapshot where
  counts : String → ℕ × ℕ
  spams : ℕ
  non_spams : ℕ

/-- Embeds `NaiveBayes.dump`. -/
def NaiveBayes.dump (m : NaiveBayes) : NBSnapshot :=
  ⟨m.counts, m.spams, m.non_spams⟩

/-- Embeds `NaiveBayes.load` (`cls(**j)`). -/
def NaiveBayes.load (j : NBSnapshot) : NaiveBayes :=
  ⟨j.counts, j.spams, j.non_spams⟩

/-- The spec's per-word impact: `ln(((cSpam(w)+1)/(totalSpam+L)) /
((cNonSpam(w)+1)/(totalNonSpam+L)))`, written from the spec text of
section 4.1. -/
noncomputable def impact_spec (m : NaiveBayes) (L : ℕ) (w : String) : ℝ :=
  Real.log ((((m.counts w).1 + 1 : ℝ) / (m.spams + L)) /
    (((m.counts w).2 + 1 : ℝ) / (m.non_spams + L)))

/-- The spec's score: `base + Σ contribution(w)` over the distinct word
set, the contribution being `impact(w) * headerWeight` for header words
and `impact(w)` otherwise, with `L` the distinct-word count.  Written
from the spec text, to be compared against `check_spam`. -/
noncomputable def score_spec (m : NaiveBayes) (words headerWords : List String)
    (headerWeight : ℝ) : ℝ :=
  Real.log ((m.spams + 1 : ℝ) / (m.non_spams + 1)) +
    ∑ w ∈ words.toFinset,
      (if w ∈ headerWords.toFinset then impact_spec m words.toFinset.card w * headerWeight
       else impact_spec m words.toFinset.card w)

theorem dedup_toFinset (l : List String) : l.dedup.toFinset = l.toFinset := by
  ext w
  simp [List.mem_toFinset, List.mem_dedup]

/-- C3: the code's `check_spam` computes exactly the spec's formula:
base log-odds plus, for each distinct word, the Laplace-smoothed impact
with `L` the distinct-word count, multiplied by the header weight
exactly when the word also occurs among the header words, unknown words
taking counts `(0, 0)`. -/
theorem check_spam_eq_score_spec (m : NaiveBayes) (words headerWords : List String)
    (headerWeight : ℝ) :
    m.check_spam words headerWords headerWeight = score_spec m words headerWords headerWeight := by
  unfold NaiveBayes.check_spam score_spec
  rw [← dedup_toFinset words, List.sum_toFinset _ (List.nodup_dedup words)]
  congr 1
  apply congrArg List.sum
  apply List.map_congr_left
  intro w _
  rw [dedup_toFinset, List.card_toFinset]
  simp [impact_spec, List.mem_toFinset]

/-- C8: importing an exported snapshot reproduces the model exactly:
identical counts and identical totals. -/
theorem load_dump_roundtrip (m : NaiveBayes) : NaiveBayes.load m.dump = m := rfl

/-- The model obtained by one `mark_spam({"a","b"})` on a fresh model,
the configuration of the spec's hand-computed example. -/
def nbAB : NaiveBayes := nbNew.mark_spam ["a", "b"]

theorem check_ab_eval : nbAB.check_spam ["a"] [] 1 = Real.log 2 := by
  have h : nbAB.counts "a" = (1, 0) := by
    simp [nbAB, NaiveBayes.mark_spam, nbNew]
  simp [NaiveBayes.check_spam, h, nbAB, NaiveBayes.mark_spam, nbNew, List.dedup]
  norm_num

/-- C4 counterexample: the spec's hand-computed value
`ln(2/1) + ln((2/3)/(1/3))` is not what the code returns for
one `markSpam({"a","b"})` followed by `score({"a"}, {}, 1.0)`. -/
theorem check_ab_ne_spec_value :
    nbAB.check_spam ["a"] [] 1 ≠ Real.log (2 / 1) + Real.log ((2 / 3) / (1 / 3)) := by
  rw [check_ab_eval]
  have h2 : ((2 : ℝ) / 3) / (1 / 3) = 2 := by norm_num
  rw [h2]
  norm_num

/-- C4 amended: with `λ = 1` and `L = 1`, one `markSpam({"a","b"})`
followed by `score({"a"}, {}, 1.0)` returns exactly
`ln(2/1) + ln((2/2)/(1/1))` (that is, `ln 2`). -/
theorem check_ab_value :
    nbAB.check_spam ["a"] [] 1 = Real.log (2 / 1) + Real.log ((2 / 2) / (1 / 1)) := by
  rw [check_ab_eval]
  norm_num

/-- A parsed section: its pandoc block payload (opaque here, type `B`)
together with the word lists the external pipeline derives from it
(`jieba.cut(pandoc.write(sec, "plain"))` and the same for the header
block).  The externals are assumed pure, so a section carries their
outputs directly. -/
structure Sec (B : Type) where
  blocks : List B
  plainWords : List String
  headerWords : List String

/-- Embeds `filter_body` (and the identical loop bodies of `proc` and
`proc_all`): walk the sections in order, score each with header weight
5.0, and extend the accumulated output with the blocks of every section
whose score is strictly negative. -/
noncomputable def filter_body {B : Type} (nb : NaiveBayes) (sections : List (Sec B)) :
    List B :=
  sections.foldl
    (fun filtered_body sec =>
      if nb.check_spam sec.plainWords sec.headerWords 5 < 0 then
        filtered_body ++ sec.blocks
      else filtered_body) []

theorem filter_body_foldl {B : Type} (nb : NaiveBayes) (sections : List (Sec B))
    (acc : List B) :
    sections.foldl
      (fun filtered_body sec =>
        if nb.check_spam sec.plainWords sec.headerWords 5 < 0 then
          filtered_body ++ sec.blocks
        else filtered_body) acc =
    acc ++ ((sections.filter fun s =>
      decide (nb.check_spam s.plainWords s.headerWords 5 < 0)).map Sec.blocks).flatten := by
  induction sections generalizing acc with
  | nil => simp
  | cons s t ih =>
    by_cases h : nb.check_spam s.plainWords s.headerWords 5 < 0
    · simp [h, ih, List.filter_cons, List.append_assoc]
    · simp [h, ih, List.filter_cons]

/-- C1 amended: the filtered output retains exactly the sections whose
score is strictly negative, concatenated in original order; a section
with score at least 0 is judged promotional and dropped (the spec had
the two sign cases swapped). -/
theorem filter_body_retains_negative {B : Type} (nb : NaiveBayes)
    (sections : List (Sec B)) :
    filter_body nb sections =
      ((sections.filter fun s =>
        decide (nb.check_spam s.plainWords s.headerWords 5 < 0)).map Sec.blocks).flatten := by
  unfold filter_body
  rw [filter_body_foldl]
  simp

theorem check_nbNew_zero (words hws : List String) (hw : ℝ) :
    nbNew.check_spam words hws hw = 0 := by
  have hlog : Real.log (((words.dedup.length : ℝ))⁻¹ * (words.dedup.length : ℝ)) = 0 := by
    rcases eq_or_ne ((words.dedup.length : ℝ)) 0 with h0 | h0
    · rw [h0, mul_zero, Real.log_zero]
    · rw [inv_mul_cancel₀ h0, Real.log_one]
  simp [NaiveBayes.check_spam, nbNew, hlog]

/-- C1 counterexample: on the untrained model every section scores
exactly 0, and the code drops it; the claim as stated says a section
with score at least 0 is retained, so its block would have to appear in
the output, but the output is empty. -/
theorem filter_body_drops_score_zero :
    0 ≤ nbNew.check_spam (["x"] : List String) ([] : List String) 5 ∧
      filter_body nbNew [(⟨[7], ["x"], []⟩ : Sec ℕ)] = ([] : List ℕ) := by
  constructor
  · rw [check_nbNew_zero]
  · rw [filter_body_retains_negative]
    rw [List.filter_cons]
    simp [check_nbNew_zero]

/-- A pandoc top-level block as far as `sections_from_doc` observes it:
the only inspected property is whether its class name is `Header`; the
payload stands for the rest of the block. -/
inductive PBlock where
  | header : ℕ → PBlock
  | body : ℕ → PBlock
deriving DecidableEq

/-- Whether the block's class name is `Header`. -/
def PBlock.isHeader : PBlock → Bool
  | .header _ => true
  | .body _ => false

/-- One iteration of the `sections_from_doc` loop: a header block opens
a new section; any other block is appended to the last section, which
fails (Python `result[-1]` raises IndexError) when no section is open
yet. -/
def sectionsStep (acc : Option (List (List PBlock))) (p : PBlock) :
    Option (List (List PBlock)) :=
  match acc with
  | none => none
  | some r =>
    if p.isHeader then some (r ++ [[p]])
    else
      match r with
      | [] => none
      | _ :: _ => some (r.dropLast ++ [r.getLastD [] ++ [p]])

/-- Embeds `sections_from_doc`: fold the loop over the document's block
list, starting from the empty section list; `none` models the raised
IndexError. -/
def sections_from_doc (blocks : List PBlock) : Option (List (List PBlock)) :=
  blocks.foldl sectionsStep (some [])

/-- A well-formed section list: every section is a header block followed
by non-header blocks only. -/
def goodSections (r : List (List PBlock)) : Prop :=
  ∀ s ∈ r, ∃ p t, s = p :: t ∧ p.isHeader = true ∧ ∀ q ∈ t, q.isHeader = false

theorem sectionsStep_body (r0 : List (List PBlock)) (q : List PBlock) (p : PBlock)
    (hp : p.isHeader = false) :
    sectionsStep (some (r0 ++ [q])) p = some (r0 ++ [q ++ [p]]) := by
  have hdrop : (r0 ++ [q]).dropLast = r0 := List.dropLast_concat
  have hlast : (r0 ++ [q]).getLastD [] = q := by
    rw [List.getLastD_eq_getLast?, List.getLast?_concat]
    rfl
  rcases r0 with _ | ⟨s, t⟩
  · simp [sectionsStep, hp]
  · rw [List.cons_append] at hdrop hlast ⊢
    simp only [sectionsStep, hp, Bool.false_eq_true, if_false]
    rw [hdrop, hlast]

theorem sections_loop_invariant (blocks : List PBlock) :
    ∀ r : List (List PBlock), r ≠ [] → goodSections r →
      ∃ secs, blocks.foldl sectionsStep (some r) = some secs ∧ secs ≠ [] ∧
        goodSections secs ∧ secs.flatten = r.flatten ++ blocks := by
  induction blocks with
  | nil => intro r hne hg; exact ⟨r, rfl, hne, hg, by simp⟩
  | cons p rest ih =>
    intro r hne hg
    by_cases hp : p.isHeader
    · have hstep : sectionsStep (some r) p = some (r ++ [[p]]) := by
        simp [sectionsStep, hp]
      obtain ⟨secs, h1, h2, h3, h4⟩ := ih (r ++ [[p]]) (by simp)
        (by
          intro s hs
          rcases List.mem_append.mp hs with hs | hs
          · exact hg s hs
          · simp only [List.mem_singleton] at hs
            exact ⟨p, [], by simp [hs], hp, by simp⟩)
      refine ⟨secs, ?_, h2, h3, ?_⟩
      · rw [List.foldl_cons, hstep]; exact h1
      · rw [h4]; simp
    · obtain ⟨q, r0, rfl⟩ : ∃ q r0, r = r0 ++ [q] := by
        rcases List.eq_nil_or_concat r with h | ⟨r0, q, hq⟩
        · exact absurd h hne
        · exact ⟨q, r0, by rw [hq, List.concat_eq_append]⟩
      have hstep : sectionsStep (some (r0 ++ [q])) p =
          some (r0 ++ [q ++ [p]]) :=
        sectionsStep_body r0 q p (Bool.eq_false_iff.mpr hp)
      obtain ⟨secs, h1, h2, h3, h4⟩ := ih (r0 ++ [q ++ [p]]) (by simp)
        (by
          intro s hs
          rcases List.mem_append.mp hs with hs | hs
          · exact hg s (List.mem_append.mpr (Or.inl hs))
          · simp only [List.mem_singleton] at hs
            obtain ⟨ph, t, hq, hph, ht⟩ := hg q (List.mem_append.mpr (Or.inr (by simp)))
            refine ⟨ph, t ++ [p], by simp [hs, hq], hph, ?_⟩
            intro x hx
            rcases List.mem_append.mp hx with hx | hx
            · exact ht x hx
            · simp only [List.mem_singleton] at hx
              subst hx
              exact Bool.eq_false_iff.mpr hp)
      refine ⟨secs, ?_, h2, h3, ?_⟩
      · rw [List.foldl_cons, hstep]; exact h1
      · rw [h4]; simp

/-- C9: when the first block of a document is a header block, the
splitter succeeds and returns sections that each consist of one header
block followed by non-header blocks only, whose concatenation is the
original block sequence; and there is a document whose first block is
not a header on which the splitter fails by indexing into the empty
result list. -/
theorem sections_from_doc_spec :
    (∀ (b : PBlock) (rest : List PBlock), b.isHeader = true →
      ∃ secs, sections_from_doc (b :: rest) = some secs ∧ secs ≠ [] ∧
        goodSections secs ∧ secs.flatten = b :: rest) ∧
      sections_from_doc [PBlock.body 0] = none := by
  constructor
  · intro b rest hb
    have hstep : sectionsStep (some []) b = some [[b]] := by
      simp [sectionsStep, hb]
    obtain ⟨secs, h1, h2, h3, h4⟩ := sections_loop_invariant rest [[b]] (by simp)
      (by
        intro s hs
        simp only [List.mem_singleton] at hs
        exact ⟨b, [], hs, hb, by simp⟩)
    refine ⟨secs, ?_, h2, h3, ?_⟩
    · unfold sections_from_doc
      rw [List.foldl_cons, hstep]
      exact h1
    · rw [h4]; simp
  · rfl

theorem sections_from_doc_witness :
    (PBlock.header 0).isHeader = true ∧
      ∃ secs, sections_from_doc [PBlock.header 0, PBlock.body 1] = some secs ∧ secs ≠ [] ∧
        goodSections secs ∧ secs.flatten = [PBlock.header 0, PBlock.body 1] :=
  ⟨by decide, sections_from_doc_spec.1 (PBlock.header 0) [PBlock.body 1] (by decide)⟩

/-- A training operation on the model: one `mark_spam` or one
`mark_not_spam` call with its word list. -/
inductive NBOp where
  | spam (ws : List String)
  | notSpam (ws : List String)

/-- Apply one training operation. -/
def applyOp (m : NaiveBayes) : NBOp → NaiveBayes
  | .spam ws => m.mark_spam ws
  | .notSpam ws => m.mark_not_spam ws

/-- The model reached from the fresh model by a sequence of training
operations. -/
def runOps (ops : List NBOp) : NaiveBayes :=
  ops.foldl applyOp nbNew

/-- The count invariant: every word's spam-occurrence count is bounded
by the spam total and every non-spam-occurrence count by the non-spam
total.  Non-negativity of all counts and totals is carried by the `ℕ`
embedding: the Python integers start at 0 and are only ever
incremented. -/
def countsBounded (m : NaiveBayes) : Prop :=
  ∀ w, (m.counts w).1 ≤ m.spams ∧ (m.counts w).2 ≤ m.non_spams

theorem countsBounded_applyOp {m : NaiveBayes} (h : countsBounded m) (op : NBOp) :
    countsBounded (applyOp m op) := by
  cases op with
  | spam ws =>
    intro w
    simp only [applyOp, NaiveBayes.mark_spam]
    by_cases hw : w ∈ ws
    · simpa [hw] using h w
    · simpa [hw] using ⟨Nat.le_succ_of_le (h w).1, (h w).2⟩
  | notSpam ws =>
    intro w
    simp only [applyOp, NaiveBayes.mark_not_spam]
    by_cases hw : w ∈ ws
    · simpa [hw] using h w
    · simpa [hw] using ⟨(h w).1, Nat.le_succ_of_le (h w).2⟩

theorem countsBounded_foldl (ops : List NBOp) :
    ∀ m : NaiveBayes, countsBounded m → countsBounded (ops.foldl applyOp m) := by
  induction ops with
  | nil => intro m h; exact h
  | cons op rest ih =>
    intro m h
    exact ih (applyOp m op) (countsBounded_applyOp h op)

/-- C10: every model reachable from the empty model by `mark_spam` and
`mark_not_spam` calls keeps every word's spam count at most the spam
total and every non-spam count at most the non-spam total; the
invariant is preserved by every operation (`countsBounded_applyOp`),
and all quantities are non-negative by the `ℕ` embedding. -/
theorem runOps_countsBounded (ops : List NBOp) : countsBounded (runOps ops) :=
  countsBounded_foldl ops nbNew (fun w => by simp [nbNew])

/-- An input issue as `proc_all` sees it: its path (the dictionary key
of the publish-record table) and the content fingerprint `doc.md5`,
abstracted to a natural number. -/
structure Issue where
  path : String
  digest : ℕ
deriving DecidableEq

/-- Association-list lookup, embedding `pub_dates.get(path, ...)`:
`none` plays the role of the `(None, None)` default. -/
def lookupPD : List (String × ℕ × ℕ) → String → Option (ℕ × ℕ)
  | [], _ => none
  | (p, v) :: rest, q => if p = q then some v else lookupPD rest q

/-- Dictionary write `pub_dates[path] = (pub_date, digest)`: replace in
place when the key exists, append otherwise. -/
def updatePD : List (String × ℕ × ℕ) → String → ℕ × ℕ → List (String × ℕ × ℕ)
  | [], q, v => [(q, v)]
  | (p, w) :: rest, q, v =>
    if p = q then (p, v) :: rest else (p, w) :: updatePD rest q v

/-- One iteration of the `proc_all` loop, restricted to its effect on
the publish-record table: an issue whose stored digest equals its
current fingerprint is skipped (`continue`); otherwise its output is
regenerated (recorded in the second component) and its record receives
a fresh timestamp (`now`) and the new fingerprint. -/
def procIssue (now : String → ℕ) (st : List (String × ℕ × ℕ) × List String)
    (i : Issue) : List (String × ℕ × ℕ) × List String :=
  match lookupPD st.1 i.path with
  | some (_, d) =>
    if d = i.digest then st
    else (updatePD st.1 i.path (now i.path, i.digest), st.2 ++ [i.path])
  | none => (updatePD st.1 i.path (now i.path, i.digest), st.2 ++ [i.path])

/-- The `proc_all` run over the publish-record table: fold the per-issue
gate over the issues, starting from the loaded table and an empty list
of regenerated issues. -/
def proc_all_records (now : String → ℕ) (issues : List Issue)
    (pub : List (String × ℕ × ℕ)) : List (String × ℕ × ℕ) × List String :=
  issues.foldl (procIssue now) (pub, [])

theorem lookup_update_self (pub : List (String × ℕ × ℕ)) (q : String) (v : ℕ × ℕ) :
    lookupPD (updatePD pub q v) q = some v := by
  induction pub with
  | nil => simp [updatePD, lookupPD]
  | cons e rest ih =>
    obtain ⟨p, w⟩ := e
    by_cases h : p = q
    · simp [updatePD, lookupPD, h]
    · simp [updatePD, lookupPD, h, ih]

theorem lookup_update_other (pub : List (String × ℕ × ℕ)) (q r : String) (v : ℕ × ℕ)
    (h : r ≠ q) : lookupPD (updatePD pub q v) r = lookupPD pub r := by
  induction pub with
  | nil => simp [updatePD, lookupPD, Ne.symm h]
  | cons e rest ih =>
    obtain ⟨p, w⟩ := e
    by_cases hp : p = q
    · subst hp
      have hpr : ¬p = r := fun hh => h hh.symm
      simp [updatePD, lookupPD, hpr]
    · simp only [updatePD, if_neg hp, lookupPD]
      by_cases hr : p = r
      · simp [hr]
      · simp [hr, ih]

theorem proc_foldl_frame (now : String → ℕ) (issues : List Issue) :
    ∀ (pub : List (String × ℕ × ℕ)) (acc : List String) (q : String),
      q ∉ issues.map Issue.path →
      lookupPD (issues.foldl (procIssue now) (pub, acc)).1 q = lookupPD pub q ∧
        (q ∈ (issues.foldl (procIssue now) (pub, acc)).2 ↔ q ∈ acc) := by
  induction issues with
  | nil => intro pub acc q _; exact ⟨rfl, Iff.rfl⟩
  | cons j rest ih =>
    intro pub acc q hq
    simp only [List.map_cons, List.mem_cons, not_or] at hq
    obtain ⟨hq1, hq2⟩ := hq
    have h1 : lookupPD (procIssue now (pub, acc) j).1 q = lookupPD pub q := by
      unfold procIssue
      rcases hcase : lookupPD pub j.path with _ | ⟨t0, d0⟩
      · simpa using lookup_update_other pub j.path q _ hq1
      · by_cases hd : d0 = j.digest
        · simp [hcase, hd]
        · simpa [hcase, hd] using lookup_update_other pub j.path q _ hq1
    have h2 : q ∈ (procIssue now (pub, acc) j).2 ↔ q ∈ acc := by
      unfold procIssue
      rcases hcase : lookupPD pub j.path with _ | ⟨t0, d0⟩
      · simp [hq1]
      · by_cases hd : d0 = j.digest
        · simp [hcase, hd]
        · simp [hcase, hd, hq1]
    rw [List.foldl_cons]
    obtain ⟨ha, hb⟩ := ih (procIssue now (pub, acc) j).1 (procIssue now (pub, acc) j).2 q hq2
    exact ⟨by rw [ha, h1], by rw [hb, h2]⟩

theorem proc_foldl_unchanged (now : String → ℕ) (issues : List Issue) :
    ∀ (pub : List (String × ℕ × ℕ)) (acc : List String) (i : Issue) (t d : ℕ),
      (issues.map Issue.path).Nodup → i ∈ issues →
      lookupPD pub i.path = some (t, d) → d = i.digest →
      lookupPD (issues.foldl (procIssue now) (pub, acc)).1 i.path = some (t, d) ∧
        (i.path ∈ (issues.foldl (procIssue now) (pub, acc)).2 ↔ i.path ∈ acc) := by
  induction issues with
  | nil => intro pub acc i t d _ hmem; exact absurd hmem (List.not_mem_nil i)
  | cons j rest ih =>
    intro pub acc i t d hnd hmem hlook hd
    simp only [List.map_cons, List.nodup_cons] at hnd
    obtain ⟨hj, hnd2⟩ := hnd
    rw [List.foldl_cons]
    rcases List.mem_cons.mp hmem with rfl | hmem2
    · have hstep : procIssue now (pub, acc) i = (pub, acc) := by
        unfold procIssue
        rw [hlook]
        simp [hd]
      rw [hstep]
      obtain ⟨ha, hb⟩ := proc_foldl_frame now rest pub acc i.path hj
      exact ⟨ha.trans hlook, hb⟩
    · have hne : i.path ≠ j.path := by
        intro hcontra
        exact hj (hcontra ▸ List.mem_map_of_mem Issue.path hmem2)
      have h1 : lookupPD (procIssue now (pub, acc) j).1 i.path = some (t, d) := by
        unfold procIssue
        rcases hcase : lookupPD pub j.path with _ | ⟨t0, d0⟩
        · simpa [lookup_update_other pub j.path i.path _ hne] using hlook
        · by_cases hd0 : d0 = j.digest
          · simpa [hcase, hd0] using hlook
          · simpa [hcase, hd0, lookup_update_other pub j.path i.path _ hne] using hlook
      have h2 : i.path ∈ (procIssue now (pub, acc) j).2 ↔ i.path ∈ acc := by
        unfold procIssue
        rcases hcase : lookupPD pub j.path with _ | ⟨t0, d0⟩
        · simp [hne]
        · by_cases hd0 : d0 = j.digest
          · simp [hcase, hd0]
          · simp [hcase, hd0, hne]
      obtain ⟨ha, hb⟩ := ih (procIssue now (pub, acc) j).1 (procIssue now (pub, acc) j).2
        i t d hnd2 hmem2 h1 hd
      exact ⟨ha, hb.trans h2⟩

theorem proc_foldl_changed (now : String → ℕ) (issues : List Issue) :
    ∀ (pub : List (String × ℕ × ℕ)) (acc : List String) (q : String),
      lookupPD (issues.foldl (procIssue now) (pub, acc)).1 q ≠ lookupPD pub q →
      ∃ i ∈ issues, i.path = q ∧
        ∀ t d, lookupPD pub q = some (t, d) → d ≠ i.digest := by
  induction issues with
  | nil => intro pub acc q h; exact absurd rfl h
  | cons j rest ih =>
    intro pub acc q h
    rw [List.foldl_cons] at h
    rcases hcase : lookupPD pub j.path with _ | ⟨t0, d0⟩
    · have hstep : procIssue now (pub, acc) j =
          (updatePD pub j.path (now j.path, j.digest), acc ++ [j.path]) := by
        unfold procIssue
        rw [hcase]
      rw [hstep] at h
      by_cases hq : q = j.path
      · subst hq
        exact ⟨j, List.mem_cons_self j rest, rfl, fun t d hl => by
          rw [hcase] at hl; exact absurd hl (by simp)⟩
      · have hframe : lookupPD (updatePD pub j.path (now j.path, j.digest)) q =
            lookupPD pub q := lookup_update_other pub j.path q _ hq
        rw [← hframe] at h
        obtain ⟨i, hi1, hi2, hi3⟩ := ih _ _ q h
        exact ⟨i, List.mem_cons_of_mem j hi1, hi2, fun t d hl =>
          hi3 t d (by rw [hframe]; exact hl)⟩
    · by_cases hd : d0 = j.digest
      · have hstep : procIssue now (pub, acc) j = (pub, acc) := by
          unfold procIssue
          rw [hcase]
          simp [hd]
        rw [hstep] at h
        obtain ⟨i, hi1, hi2, hi3⟩ := ih _ _ q h
        exact ⟨i, List.mem_cons_of_mem j hi1, hi2, hi3⟩
      · have hstep : procIssue now (pub, acc) j =
            (updatePD pub j.path (now j.path, j.digest), acc ++ [j.path]) := by
          unfold procIssue
          rw [hcase]
          simp [hd]
        rw [hstep] at h
        by_cases hq : q = j.path
        · subst hq
          refine ⟨j, List.mem_cons_self j rest, rfl, fun t d hl => ?_⟩
          rw [hcase] at hl
          obtain ⟨rfl, rfl⟩ : t0 = t ∧ d0 = d := by
            constructor <;> injection hl with hl2 <;> cases hl2 <;> rfl
          exact hd
        · have hframe : lookupPD (updatePD pub j.path (now j.path, j.digest)) q =
              lookupPD pub q := lookup_update_other pub j.path q _ hq
          rw [← hframe] at h
          obtain ⟨i, hi1, hi2, hi3⟩ := ih _ _ q h
          exact ⟨i, List.mem_cons_of_mem j hi1, hi2, fun t d hl =>
            hi3 t d (by rw [hframe]; exact hl)⟩

/-- C5: in a publish run over issues with distinct paths, an issue whose
current fingerprint equals its stored record's fingerprint keeps its
record (timestamp and fingerprint) unchanged and has its output
regenerated by no iteration; and any path whose record differs after
the run belongs to an issue of the run whose stored fingerprint was
absent or differed from its current fingerprint. -/
theorem proc_all_records_frame (now : String → ℕ) (issues : List Issue)
    (pub : List (String × ℕ × ℕ)) (hnd : (issues.map Issue.path).Nodup) :
    (∀ i ∈ issues, ∀ t d, lookupPD pub i.path = some (t, d) → d = i.digest →
        lookupPD (proc_all_records now issues pub).1 i.path = some (t, d) ∧
          i.path ∉ (proc_all_records now issues pub).2) ∧
    (∀ q, lookupPD (proc_all_records now issues pub).1 q ≠ lookupPD pub q →
        ∃ i ∈ issues, i.path = q ∧
          ∀ t d, lookupPD pub q = some (t, d) → d ≠ i.digest) := by
  constructor
  · intro i hmem t d hlook hd
    obtain ⟨ha, hb⟩ := proc_foldl_unchanged now issues pub [] i t d hnd hmem hlook hd
    exact ⟨ha, fun hcontra => by simp at hb; exact hb hcontra⟩
  · intro q h
    exact proc_foldl_changed now issues pub [] q h

theorem proc_all_records_frame_witness :
    (([⟨"a", 1⟩, ⟨"b", 2⟩] : List Issue).map Issue.path).Nodup ∧
      lookupPD [("a", (10, 1)), ("b", (20, 9))] "a" = some (10, 1) ∧
      lookupPD (proc_all_records (fun _ => 99) [⟨"a", 1⟩, ⟨"b", 2⟩]
          [("a", (10, 1)), ("b", (20, 9))]).1 "a" = some (10, 1) ∧
        "a" ∉ (proc_all_records (fun _ => 99) [⟨"a", 1⟩, ⟨"b", 2⟩]
          [("a", (10, 1)), ("b", (20, 9))]).2 := by
  refine ⟨by decide, by decide, ?_⟩
  exact (proc_all_records_frame (fun _ => 99) [⟨"a", 1⟩, ⟨"b", 2⟩]
    [("a", (10, 1)), ("b", (20, 9))] (by decide)).1 ⟨"a", 1⟩ (by decide) 10 1 (by decide) rfl

/-- The state after `n` further `mark_spam(cut)` calls with the same cut
list, the iteration shape of the spam reinforcement loop. -/
def iterSpam (m : NaiveBayes) (words : List String) : ℕ → NaiveBayes
  | 0 => m
  | n + 1 => (iterSpam m words n).mark_spam words

/-- The state after `n` further `mark_not_spam(cut)` calls. -/
def iterNotSpam (m : NaiveBayes) (words : List String) : ℕ → NaiveBayes
  | 0 => m
  | n + 1 => (iterNotSpam m words n).mark_not_spam words

theorem iterSpam_spams (m : NaiveBayes) (words : List String) (n : ℕ) :
    (iterSpam m words n).spams = m.spams + n := by
  induction n with
  | zero => rfl
  | succ k ih => simp [iterSpam, NaiveBayes.mark_spam, ih, Nat.add_assoc]

theorem iterSpam_non_spams (m : NaiveBayes) (words : List String) (n : ℕ) :
    (iterSpam m words n).non_spams = m.non_spams := by
  induction n with
  | zero => rfl
  | succ k ih => simp [iterSpam, NaiveBayes.mark_spam, ih]

theorem iterSpam_counts_mem (m : NaiveBayes) (words : List String) (n : ℕ)
    (w : String) (hw : w ∈ words) :
    (iterSpam m words n).counts w = ((m.counts w).1 + n, (m.counts w).2) := by
  induction n with
  | zero => rfl
  | succ k ih => simp [iterSpam, NaiveBayes.mark_spam, hw, ih, Nat.add_assoc]

/-- The positive odds whose logarithm `check_spam` computes when called
with no header words and multiplier 1 (the form used by the
reinforcement loops). -/
noncomputable def odds (m : NaiveBayes) (words : List String) : ℝ :=
  ((m.spams + 1 : ℝ) / (m.non_spams + 1)) *
    (words.dedup.map (fun w =>
      (((m.counts w).1 + 1 : ℝ) / (m.spams + words.dedup.length)) /
        (((m.counts w).2 + 1 : ℝ) / (m.non_spams + words.dedup.length)))).prod

theorem odds_factor_pos (m : NaiveBayes) (words : List String) (w : String)
    (hw : w ∈ words.dedup) :
    0 < (((m.counts w).1 + 1 : ℝ) / (m.spams + words.dedup.length)) /
      (((m.counts w).2 + 1 : ℝ) / (m.non_spams + words.dedup.length)) := by
  have hlen : 0 < words.dedup.length := List.length_pos.mpr (List.ne_nil_of_mem hw)
  have hlen2 : (0 : ℝ) < words.dedup.length := by exact_mod_cast hlen
  have h1 : (0 : ℝ) < (m.spams : ℝ) + words.dedup.length := by positivity
  have h2 : (0 : ℝ) < (m.non_spams : ℝ) + words.dedup.length := by positivity
  positivity

theorem odds_pos (m : NaiveBayes) (words : List String) : 0 < odds m words := by
  unfold odds
  have hbase : (0 : ℝ) < (m.spams + 1 : ℝ) / (m.non_spams + 1) := by positivity
  refine mul_pos hbase (List.prod_pos ?_)
  intro x hx
  obtain ⟨w, hw, rfl⟩ := List.mem_map.mp hx
  exact odds_factor_pos m words w hw

theorem log_list_prod (l : List ℝ) (h : ∀ x ∈ l, 0 < x) :
    Real.log l.prod = (l.map Real.log).sum := by
  induction l with
  | nil => simp
  | cons x t ih =>
    have hx : 0 < x := h x (List.mem_cons_self x t)
    have ht : ∀ y ∈ t, 0 < y := fun y hy => h y (List.mem_cons_of_mem x hy)
    have hprod : 0 < t.prod := List.prod_pos ht
    simp only [List.prod_cons, List.map_cons, List.sum_cons]
    rw [Real.log_mul (ne_of_gt hx) (ne_of_gt hprod), ih ht]

theorem check_spam_eq_log_odds (m : NaiveBayes) (words : List String) :
    m.check_spam words [] 1 = Real.log (odds m words) := by
  unfold NaiveBayes.check_spam odds
  have hbase : (0 : ℝ) < (m.spams + 1 : ℝ) / (m.non_spams + 1) := by positivity
  have hprod : 0 < (words.dedup.map (fun w =>
      (((m.counts w).1 + 1 : ℝ) / (m.spams + words.dedup.length)) /
        (((m.counts w).2 + 1 : ℝ) / (m.non_spams + words.dedup.length)))).prod := by
    refine List.prod_pos ?_
    intro x hx
    obtain ⟨w, hw, rfl⟩ := List.mem_map.mp hx
    exact odds_factor_pos m words w hw
  rw [Real.log_mul (ne_of_gt hbase) (ne_of_gt hprod)]
  congr 1
  rw [log_list_prod _ (fun x hx => by
    obtain ⟨w, hw, rfl⟩ := List.mem_map.mp hx
    exact odds_factor_pos m words w hw)]
  rw [List.map_map]
  apply congrArg List.sum
  apply List.map_congr_left
  intro w _
  simp

theorem check_nonneg_iff_odds (m : NaiveBayes) (words : List String) :
    0 ≤ m.check_spam words [] 1 ↔ 1 ≤ odds m words := by
  rw [check_spam_eq_log_odds]
  exact Real.log_nonneg_iff (odds_pos m words)

theorem check_nonpos_iff_odds (m : NaiveBayes) (words : List String) :
    m.check_spam words [] 1 ≤ 0 ↔ odds m words ≤ 1 := by
  rw [check_spam_eq_log_odds]
  exact Real.log_nonpos_iff (odds_pos m words)

theorem odds_iterSpam_eval (m : NaiveBayes) (words : List String) (n : ℕ) :
    odds (iterSpam m words n) words =
      (((m.spams : ℝ) + n + 1) / ((m.non_spams : ℝ) + 1)) *
        (words.dedup.map (fun w =>
          (((m.counts w).1 + n + 1 : ℝ) / ((m.spams : ℝ) + n + words.dedup.length)) /
            (((m.counts w).2 + 1 : ℝ) / ((m.non_spams : ℝ) + words.dedup.length)))).prod := by
  unfold odds
  rw [iterSpam_spams, iterSpam_non_spams]
  congr 1
  · push_cast
    ring_nf
  · apply congrArg List.prod
    apply List.map_congr_left
    intro w hw
    rw [iterSpam_counts_mem m words n w (List.mem_dedup.mp hw)]
    push_cast
    ring_nf

theorem list_prod_le_prod {α : Type} (l : List α) (f g : α → ℝ)
    (h : ∀ x ∈ l, 0 < f x ∧ f x ≤ g x) :
    0 < (l.map f).prod ∧ (l.map f).prod ≤ (l.map g).prod := by
  induction l with
  | nil => simp
  | cons x t ih =>
    obtain ⟨hx1, hx2⟩ := h x (List.mem_cons_self x t)
    obtain ⟨ih1, ih2⟩ := ih (fun y hy => h y (List.mem_cons_of_mem x hy))
    simp only [List.map_cons, List.prod_cons]
    exact ⟨mul_pos hx1 ih1,
      mul_le_mul hx2 ih2 (le_of_lt ih1) (le_trans (le_of_lt hx1) hx2)⟩

theorem list_prod_inv {α : Type} (l : List α) (f : α → ℝ) :
    (l.map (fun x => (f x)⁻¹)).prod = ((l.map f).prod)⁻¹ := by
  induction l with
  | nil => simp
  | cons x t ih => simp [mul_inv, ih, mul_comm]

theorem factor_lower (a b S N L n : ℕ) (hL : 1 ≤ L) (hn : S + L ≤ n) :
    (2 * ((b : ℝ) + 1))⁻¹ ≤
      (((a : ℝ) + n + 1) / ((S : ℝ) + n + L)) / (((b : ℝ) + 1) / ((N : ℝ) + L)) := by
  have hLr : (1 : ℝ) ≤ (L : ℝ) := by exact_mod_cast hL
  have hb : (0 : ℝ) < (b : ℝ) + 1 := by positivity
  have hnr : (S : ℝ) + L ≤ (n : ℝ) := by exact_mod_cast hn
  have ha : (0 : ℝ) ≤ (a : ℝ) := Nat.cast_nonneg a
  have hN : (0 : ℝ) ≤ (N : ℝ) := Nat.cast_nonneg N
  have hS : (0 : ℝ) ≤ (S : ℝ) := Nat.cast_nonneg S
  have hdpos : (0 : ℝ) < (S : ℝ) + n + L := by
    have hn0 : (0 : ℝ) ≤ (n : ℝ) := Nat.cast_nonneg n
    linarith
  rw [div_div_eq_mul_div, div_mul_eq_mul_div, div_div, inv_eq_one_div,
    div_le_div_iff₀ (by positivity) (by positivity)]
  have key : (S : ℝ) + n + L ≤ 2 * ((a : ℝ) + n + 1) * ((N : ℝ) + L) := by
    have c1 : (S : ℝ) + n + L ≤ 2 * ((a : ℝ) + n + 1) := by linarith
    have c2 : 2 * ((a : ℝ) + n + 1) ≤ 2 * ((a : ℝ) + n + 1) * ((N : ℝ) + L) := by
      have hpos : (0 : ℝ) ≤ 2 * ((a : ℝ) + n + 1) := by positivity
      nlinarith
    linarith
  have final : ((S : ℝ) + n + L) * ((b : ℝ) + 1) ≤
      (2 * ((a : ℝ) + n + 1) * ((N : ℝ) + L)) * ((b : ℝ) + 1) :=
    mul_le_mul_of_nonneg_right key (le_of_lt hb)
  nlinarith [final]

theorem odds_iterSpam_ge_one (m : NaiveBayes) (words : List String) (n : ℕ)
    (hn1 : m.spams + words.dedup.length ≤ n)
    (hn2 : (m.non_spams + 1) *
        (words.dedup.map (fun w => 2 * ((m.counts w).2 + 1))).prod ≤ n) :
    1 ≤ odds (iterSpam m words n) words := by
  rw [odds_iterSpam_eval]
  obtain ⟨hp, hple⟩ := list_prod_le_prod words.dedup
    (fun w => (2 * (((m.counts w).2 : ℝ) + 1))⁻¹)
    (fun w => (((m.counts w).1 + n + 1 : ℝ) / ((m.spams : ℝ) + n + words.dedup.length)) /
      (((m.counts w).2 + 1 : ℝ) / ((m.non_spams : ℝ) + words.dedup.length)))
    (fun w hw => by
      have hL : 1 ≤ words.dedup.length :=
        List.length_pos.mpr (List.ne_nil_of_mem hw)
      have hn : m.spams + words.dedup.length ≤ n := hn1
      exact ⟨by positivity,
        factor_lower (m.counts w).1 (m.counts w).2 m.spams m.non_spams
          words.dedup.length n hL hn⟩)
  have hQpos : (0 : ℝ) <
      (words.dedup.map (fun w => 2 * (((m.counts w).2 : ℝ) + 1))).prod := by
    refine List.prod_pos ?_
    intro x hx
    obtain ⟨w, hw, rfl⟩ := List.mem_map.mp hx
    positivity
  have hcast : (((words.dedup.map (fun w => 2 * ((m.counts w).2 + 1))).prod : ℕ) : ℝ)
      = (words.dedup.map (fun w => 2 * (((m.counts w).2 : ℝ) + 1))).prod := by
    rw [Nat.cast_list_prod, List.map_map]
    apply congrArg List.prod
    apply List.map_congr_left
    intro w _
    simp only [Function.comp_apply]
    push_cast
    ring
  have h2r : ((m.non_spams : ℝ) + 1) *
      (words.dedup.map (fun w => 2 * (((m.counts w).2 : ℝ) + 1))).prod ≤ (n : ℝ) := by
    have := (Nat.cast_le.mpr hn2 : (((m.non_spams + 1) *
      (words.dedup.map (fun w => 2 * ((m.counts w).2 + 1))).prod : ℕ) : ℝ) ≤ (n : ℝ))
    rw [Nat.cast_mul, hcast] at this
    push_cast at this
    exact this
  have hinv : (words.dedup.map (fun w => (2 * (((m.counts w).2 : ℝ) + 1))⁻¹)).prod =
      ((words.dedup.map (fun w => 2 * (((m.counts w).2 : ℝ) + 1))).prod)⁻¹ :=
    list_prod_inv words.dedup (fun w => 2 * (((m.counts w).2 : ℝ) + 1))
  have hbase : (0 : ℝ) ≤ ((m.spams : ℝ) + n + 1) / ((m.non_spams : ℝ) + 1) := by
    positivity
  have step1 : (((m.spams : ℝ) + n + 1) / ((m.non_spams : ℝ) + 1)) *
      ((words.dedup.map (fun w => 2 * (((m.counts w).2 : ℝ) + 1))).prod)⁻¹ ≤
      (((m.spams : ℝ) + n + 1) / ((m.non_spams : ℝ) + 1)) *
        (words.dedup.map (fun w =>
          (((m.counts w).1 + n + 1 : ℝ) / ((m.spams : ℝ) + n + words.dedup.length)) /
            (((m.counts w).2 + 1 : ℝ) /
              ((m.non_spams : ℝ) + words.dedup.length)))).prod := by
    rw [← hinv]
    exact mul_le_mul_of_nonneg_left hple hbase
  refine le_trans ?_ step1
  rw [← div_eq_mul_inv, div_div]
  rw [one_le_div (by positivity)]
  have hS : (0 : ℝ) ≤ (m.spams : ℝ) := Nat.cast_nonneg m.spams
  linarith

theorem spamLoop_exit_exists (m : NaiveBayes) (words : List String) :
    ∃ n, 0 ≤ (iterSpam m words n).check_spam words [] 1 := by
  refine ⟨max (m.spams + words.dedup.length)
    ((m.non_spams + 1) * (words.dedup.map (fun w => 2 * ((m.counts w).2 + 1))).prod), ?_⟩
  rw [check_nonneg_iff_odds]
  exact odds_iterSpam_ge_one m words _ (le_max_left _ _) (le_max_right _ _)

/-- Swap the two training classes of a model: exchange the count pair of
every word and the two totals.  `mark_not_spam` is `mark_spam` through
this involution, which transfers the spam-side termination bound to the
not-spam loop. -/
def NaiveBayes.mirror (m : NaiveBayes) : NaiveBayes :=
  ⟨fun w => ((m.counts w).2, (m.counts w).1), m.non_spams, m.spams⟩

theorem mirror_mirror (m : NaiveBayes) : m.mirror.mirror = m := rfl

theorem mark_not_spam_mirror (m : NaiveBayes) (words : List String) :
    m.mark_not_spam words = (m.mirror.mark_spam words).mirror := by
  unfold NaiveBayes.mark_not_spam NaiveBayes.mark_spam NaiveBayes.mirror
  congr 1
  funext w
  by_cases hw : w ∈ words <;> simp [hw]

theorem iterNotSpam_mirror (m : NaiveBayes) (words : List String) (n : ℕ) :
    iterNotSpam m words n = (iterSpam m.mirror words n).mirror := by
  induction n with
  | zero => rfl
  | succ k ih =>
    show (iterNotSpam m words k).mark_not_spam words = _
    rw [ih, mark_not_spam_mirror, mirror_mirror]
    rfl

theorem odds_mirror (m : NaiveBayes) (words : List String) :
    odds m.mirror words = (odds m words)⁻¹ := by
  unfold odds NaiveBayes.mirror
  rw [mul_inv, ← list_prod_inv]
  congr 1
  · rw [inv_div]
  · apply congrArg List.prod
    apply List.map_congr_left
    intro w _
    rw [inv_div]

theorem notSpamLoop_exit_exists (m : NaiveBayes) (words : List String) :
    ∃ n, (iterNotSpam m words n).check_spam words [] 1 ≤ 0 := by
  obtain ⟨n, hn⟩ := spamLoop_exit_exists m.mirror words
  refine ⟨n, ?_⟩
  rw [check_nonpos_iff_odds, iterNotSpam_mirror, odds_mirror]
  rw [check_nonneg_iff_odds] at hn
  exact inv_le_one_of_one_le₀ hn

/-- The spam branch of the interactive `m` command: one `mark_spam(cut)`
followed by `while nb.check_spam(cut) < 0: nb.mark_spam(cut)`; the loop
result is the first iterate whose unweighted score is non-negative,
which exists by `spamLoop_exit_exists`. -/
noncomputable def reinforceSpam (m : NaiveBayes) (cut : List String) : NaiveBayes :=
  iterSpam (m.mark_spam cut) cut (Nat.find (spamLoop_exit_exists (m.mark_spam cut) cut))

/-- The not-spam branch: one `mark_not_spam(cut)` followed by
`while nb.check_spam(cut) > 0: nb.mark_not_spam(cut)`. -/
noncomputable def reinforceNotSpam (m : NaiveBayes) (cut : List String) : NaiveBayes :=
  iterNotSpam (m.mark_not_spam cut) cut
    (Nat.find (notSpamLoop_exit_exists (m.mark_not_spam cut) cut))

/-- C2 amended: after the spam reinforcement loop the unweighted score
of the same cut list is non-negative (not strictly negative as the spec
states), and after the not-spam loop it is non-positive (not strictly
positive): the loops stop at the first iterate that reaches the
agreeing side, bound included. -/
theorem reinforce_forces_agreement (m : NaiveBayes) (cut : List String) :
    0 ≤ (reinforceSpam m cut).check_spam cut [] 1 ∧
      (reinforceNotSpam m cut).check_spam cut [] 1 ≤ 0 :=
  ⟨Nat.find_spec (spamLoop_exit_exists (m.mark_spam cut) cut),
    Nat.find_spec (notSpamLoop_exit_exists (m.mark_not_spam cut) cut)⟩

theorem check_a_eval : (nbNew.mark_spam ["a"]).check_spam ["a"] [] 1 = Real.log 2 := by
  have h : (nbNew.mark_spam ["a"]).counts "a" = (1, 0) := by
    simp [NaiveBayes.mark_spam, nbNew]
  simp [NaiveBayes.check_spam, h, NaiveBayes.mark_spam, nbNew, List.dedup]
  norm_num

/-- C2 counterexample: reinforcing `["a"]` as spam on the fresh model
leaves the unweighted score at `ln 2 > 0`, not strictly negative as the
claim states: the loop body never runs because the score already agrees
after the initial `mark_spam`. -/
theorem reinforceSpam_score_not_negative :
    ¬ (reinforceSpam nbNew ["a"]).check_spam ["a"] [] 1 < 0 := by
  have h0 : 0 ≤ (iterSpam (nbNew.mark_spam ["a"]) ["a"] 0).check_spam ["a"] [] 1 := by
    show 0 ≤ (nbNew.mark_spam ["a"]).check_spam ["a"] [] 1
    rw [check_a_eval]
    exact Real.log_nonneg (by norm_num)
  have hfind : Nat.find (spamLoop_exit_exists (nbNew.mark_spam ["a"]) ["a"]) = 0 :=
    (Nat.find_eq_zero (spamLoop_exit_exists (nbNew.mark_spam ["a"]) ["a"])).mpr h0
  have heq : reinforceSpam nbNew ["a"] = nbNew.mark_spam ["a"] := by
    unfold reinforceSpam
    rw [hfind]
    rfl
  rw [heq, check_a_eval]
  exact not_lt.mpr (Real.log_nonneg (by norm_num))

/-- C7: for every model state and every non-empty cut list, both
reinforcement loops reach their exit condition after finitely many
further marking calls: some iterate of the spam loop has non-negative
unweighted score, and some iterate of the not-spam loop has
non-positive unweighted score. -/
theorem reinforce_loops_terminate (m : NaiveBayes) (cut : List String)
    (_hne : cut ≠ []) :
    (∃ n, 0 ≤ (iterSpam (m.mark_spam cut) cut n).check_spam cut [] 1) ∧
      ∃ n, (iterNotSpam (m.mark_not_spam cut) cut n).check_spam cut [] 1 ≤ 0 :=
  ⟨spamLoop_exit_exists (m.mark_spam cut) cut,
    notSpamLoop_exit_exists (m.mark_not_spam cut) cut⟩

theorem reinforce_loops_terminate_witness :
    (["a"] : List String) ≠ [] ∧
      ((∃ n, 0 ≤ (iterSpam (nbNew.mark_spam ["a"]) ["a"] n).check_spam ["a"] [] 1) ∧
        ∃ n, (iterNotSpam (nbNew.mark_not_spam ["a"]) ["a"] n).check_spam ["a"] [] 1 ≤ 0) :=
  ⟨by decide, reinforce_loops_terminate nbNew ["a"] (by decide)⟩

/-- Insertion step of a stable timestamp-descending sort: place `x`
before the first element whose timestamp is strictly smaller, so that
elements with equal timestamps keep their original relative order, as
Python's stable `list.sort(key=lambda x: x[0], reverse=True)` does. -/
def insertTs {α : Type} (x : ℕ × α) : List (ℕ × α) → List (ℕ × α)
  | [] => [x]
  | y :: ys => if y.1 < x.1 then x :: y :: ys else y :: insertTs x ys

/-- Stable sort by timestamp, descending: the result of
`list.sort(key=lambda x: x[0], reverse=True)`, which a stable insertion
sort reproduces exactly. -/
def sortTsDesc {α : Type} (l : List (ℕ × α)) : List (ℕ × α) :=
  l.foldl (fun acc x => insertTs x acc) []

/-- Embeds `last_posts_append` of `proc_all`: append the candidate,
sort the whole feed by publish timestamp descending, truncate to 6. -/
def last_posts_append {α : Type} (last_posts : List (ℕ × α)) (c : ℕ × α) :
    List (ℕ × α) :=
  (sortTsDesc (last_posts ++ [c])).take 6

/-- The feed produced by offering a sequence of entries to
`last_posts_append`, starting from the empty feed. -/
def feedRun {α : Type} (entries : List (ℕ × α)) : List (ℕ × α) :=
  entries.foldl last_posts_append []

theorem insertTs_perm {α : Type} (x : ℕ × α) (l : List (ℕ × α)) :
    (insertTs x l).Perm (x :: l) := by
  induction l with
  | nil => rfl
  | cons y ys ih =>
    by_cases h : y.1 < x.1
    · simp [insertTs, h]
    · simp only [insertTs, if_neg h]
      exact (ih.cons y).trans (List.Perm.swap x y ys)

theorem insertTs_sorted {α : Type} (x : ℕ × α) (l : List (ℕ × α))
    (h : l.Pairwise (fun a b => b.1 ≤ a.1)) :
    (insertTs x l).Pairwise (fun a b => b.1 ≤ a.1) := by
  induction l with
  | nil => simp [insertTs]
  | cons y ys ih =>
    obtain ⟨hy, hys⟩ := List.pairwise_cons.mp h
    by_cases hc : y.1 < x.1
    · simp only [insertTs, if_pos hc]
      refine List.pairwise_cons.mpr ⟨?_, h⟩
      intro z hz
      rcases List.mem_cons.mp hz with rfl | hz2
      · exact le_of_lt hc
      · exact le_trans (hy z hz2) (le_of_lt hc)
    · simp only [insertTs, if_neg hc]
      refine List.pairwise_cons.mpr ⟨?_, ih hys⟩
      intro z hz
      rcases List.mem_cons.mp ((insertTs_perm x ys).mem_iff.mp hz) with heq | hz2
      · rw [heq]
        exact le_of_not_lt hc
      · exact hy z hz2

theorem sortTsDesc_perm_aux {α : Type} (l acc : List (ℕ × α)) :
    (l.foldl (fun acc x => insertTs x acc) acc).Perm (acc ++ l) := by
  induction l generalizing acc with
  | nil => simp
  | cons x t ih =>
    rw [List.foldl_cons]
    refine (ih (insertTs x acc)).trans ?_
    refine (List.Perm.append_right t (insertTs_perm x acc)).trans ?_
    exact List.perm_middle.symm

theorem sortTsDesc_perm {α : Type} (l : List (ℕ × α)) : (sortTsDesc l).Perm l := by
  simpa using sortTsDesc_perm_aux l []

theorem sortTsDesc_sorted_aux {α : Type} (l acc : List (ℕ × α))
    (h : acc.Pairwise (fun a b => b.1 ≤ a.1)) :
    (l.foldl (fun acc x => insertTs x acc) acc).Pairwise (fun a b => b.1 ≤ a.1) := by
  induction l generalizing acc with
  | nil => exact h
  | cons x t ih => exact ih (insertTs x acc) (insertTs_sorted x acc h)

theorem sortTsDesc_sorted {α : Type} (l : List (ℕ × α)) :
    (sortTsDesc l).Pairwise (fun a b => b.1 ≤ a.1) :=
  sortTsDesc_sorted_aux l [] (by simp)

/-- The number of entries of `l` whose timestamp strictly exceeds that
of `x`. -/
def cGT {α : Type} (l : List (ℕ × α)) (x : ℕ × α) : ℕ :=
  (l.filter (fun y => decide (x.1 < y.1))).length

theorem cGT_perm {α : Type} {l l2 : List (ℕ × α)} (h : l.Perm l2) (x : ℕ × α) :
    cGT l x = cGT l2 x := by
  unfold cGT
  exact (h.filter _).length_eq

theorem cGT_sublist {α : Type} {l l2 : List (ℕ × α)} (h : l.Sublist l2) (x : ℕ × α) :
    cGT l x ≤ cGT l2 x := by
  unfold cGT
  exact (h.filter _).length_le

theorem cGT_append {α : Type} (l l2 : List (ℕ × α)) (x : ℕ × α) :
    cGT (l ++ l2) x = cGT l x + cGT l2 x := by
  simp [cGT, List.filter_append]

theorem mem_take_of_sorted {α : Type} (s : List (ℕ × α)) :
    ∀ k : ℕ, s.Pairwise (fun a b => b.1 ≤ a.1) → (s.map Prod.fst).Nodup →
      ∀ x, (x ∈ s.take k ↔ x ∈ s ∧ cGT s x < k) := by
  induction s with
  | nil => intro k _ _ x; simp
  | cons a t ih =>
    intro k hs hn x
    obtain ⟨ha, ht⟩ := List.pairwise_cons.mp hs
    simp only [List.map_cons, List.nodup_cons] at hn
    obtain ⟨hna, hnt⟩ := hn
    cases k with
    | zero => simp
    | succ k =>
      rw [List.take_succ_cons]
      by_cases hx : x = a
      · subst hx
        have hfe : t.filter (fun y => decide (x.1 < y.1)) = [] := by
          rw [List.filter_eq_nil_iff]
          intro y hy
          simp only [decide_eq_true_eq]
          exact not_lt.mpr (ha y hy)
        have hc : cGT (x :: t) x = 0 := by
          simp [cGT, List.filter_cons, hfe]
        simp [hc]
      · constructor
        · intro hmem
          have hxt : x ∈ t.take k := by
            rcases List.mem_cons.mp hmem with h1 | h1
            · exact absurd h1 hx
            · exact h1
          obtain ⟨hmt, hct⟩ := (ih k ht hnt x).mp hxt
          have hlt : x.1 < a.1 := by
            refine lt_of_le_of_ne (ha x hmt) (fun heq => hna ?_)
            rw [← heq]
            exact List.mem_map_of_mem Prod.fst hmt
          have hc : cGT (a :: t) x = cGT t x + 1 := by
            simp [cGT, List.filter_cons, hlt]
          exact ⟨List.mem_cons_of_mem a hmt, by omega⟩
        · rintro ⟨hmem, hcnt⟩
          have hxt : x ∈ t := (List.mem_cons.mp hmem).resolve_left hx
          have hlt : x.1 < a.1 := by
            refine lt_of_le_of_ne (ha x hxt) (fun heq => hna ?_)
            rw [← heq]
            exact List.mem_map_of_mem Prod.fst hxt
          have hc : cGT (a :: t) x = cGT t x + 1 := by
            simp [cGT, List.filter_cons, hlt]
          refine List.mem_cons_of_mem a ((ih k ht hnt x).mpr ⟨hxt, ?_⟩)
          omega

theorem keys_nodup_sort {α : Type} (l : List (ℕ × α))
    (h : (l.map Prod.fst).Nodup) : ((sortTsDesc l).map Prod.fst).Nodup :=
  (((sortTsDesc_perm l).map Prod.fst).symm).nodup h

theorem keys_nodup_sort_take {α : Type} (l : List (ℕ × α)) (k : ℕ)
    (h : (l.map Prod.fst).Nodup) :
    (((sortTsDesc l).take k).map Prod.fst).Nodup :=
  List.Nodup.sublist ((List.take_sublist k (sortTsDesc l)).map Prod.fst)
    (keys_nodup_sort l h)

theorem mem_top_take {α : Type} (l : List (ℕ × α))
    (h : (l.map Prod.fst).Nodup) (k : ℕ) (x : ℕ × α) :
    x ∈ (sortTsDesc l).take k ↔ x ∈ l ∧ cGT l x < k := by
  rw [mem_take_of_sorted (sortTsDesc l) k (sortTsDesc_sorted l) (keys_nodup_sort l h) x]
  rw [(sortTsDesc_perm l).mem_iff, cGT_perm (sortTsDesc_perm l) x]

theorem sorted_strict_of_nodup {α : Type} (s : List (ℕ × α))
    (hs : s.Pairwise (fun a b => b.1 ≤ a.1)) (hn : (s.map Prod.fst).Nodup) :
    s.Pairwise (fun a b => b.1 < a.1) := by
  have hne : s.Pairwise (fun a b => a.1 ≠ b.1) := List.pairwise_map.mp hn
  exact (hs.and hne).imp (fun hab => lt_of_le_of_ne hab.1 (Ne.symm hab.2))

theorem eq_of_perm_sorted_strict {α : Type} {l1 l2 : List (ℕ × α)}
    (hp : l1.Perm l2)
    (h1 : l1.Pairwise (fun a b => b.1 < a.1))
    (h2 : l2.Pairwise (fun a b => b.1 < a.1)) :
    l1 = l2 := by
  haveI : IsAntisymm (ℕ × α) (fun a b => b.1 < a.1) :=
    ⟨fun a b hab hba => absurd (hab.trans hba) (lt_irrefl _)⟩
  exact List.eq_of_perm_of_sorted hp h1 h2

theorem top_take_truncate {α : Type} (m l : List (ℕ × α))
    (h : ((m ++ l).map Prod.fst).Nodup) :
    (sortTsDesc ((sortTsDesc m).take 6 ++ l)).take 6 = (sortTsDesc (m ++ l)).take 6 := by
  have h2 := h
  rw [List.map_append, List.nodup_append] at h2
  obtain ⟨hm, hl, hdisj⟩ := h2
  have ht6sub : ((sortTsDesc m).take 6).Sublist (sortTsDesc m) :=
    List.take_sublist 6 (sortTsDesc m)
  have ht6mem : ∀ y ∈ (sortTsDesc m).take 6, y ∈ m := fun y hy =>
    (sortTsDesc_perm m).mem_iff.mp (ht6sub.subset hy)
  have hkeys_t6 : (((sortTsDesc m).take 6).map Prod.fst).Nodup :=
    keys_nodup_sort_take m 6 hm
  have hkeys_t6l : ((((sortTsDesc m).take 6) ++ l).map Prod.fst).Nodup := by
    rw [List.map_append, List.nodup_append]
    refine ⟨hkeys_t6, hl, ?_⟩
    intro u hu hul
    obtain ⟨y, hy, rfl⟩ := List.mem_map.mp hu
    exact hdisj (List.mem_map_of_mem Prod.fst (ht6mem y hy)) hul
  have memL := mem_top_take (((sortTsDesc m).take 6) ++ l) hkeys_t6l 6
  have memR := mem_top_take (m ++ l) h 6
  have hiff : ∀ x, (x ∈ ((sortTsDesc m).take 6) ++ l ∧
      cGT (((sortTsDesc m).take 6) ++ l) x < 6) ↔
      (x ∈ m ++ l ∧ cGT (m ++ l) x < 6) := by
    intro x
    rw [cGT_append, cGT_append]
    constructor
    · rintro ⟨hmem, hcnt⟩
      have hc6 : cGT ((sortTsDesc m).take 6) x < 6 :=
        lt_of_le_of_lt (Nat.le_add_right _ _) hcnt
      have hall : ∀ y ∈ m, x.1 < y.1 → y ∈ (sortTsDesc m).take 6 := by
        intro y hy hlt
        by_contra hyn
        have hys : y ∈ sortTsDesc m := (sortTsDesc_perm m).mem_iff.mpr hy
        have hsplit : y ∈ (sortTsDesc m).take 6 ++ (sortTsDesc m).drop 6 := by
          rw [List.take_append_drop]
          exact hys
        have hydrop : y ∈ (sortTsDesc m).drop 6 :=
          (List.mem_append.mp hsplit).resolve_left hyn
        have hstrict : (sortTsDesc m).Pairwise (fun a b => b.1 < a.1) :=
          sorted_strict_of_nodup _ (sortTsDesc_sorted m) (keys_nodup_sort m hm)
        have hstrict2 : ((sortTsDesc m).take 6 ++ (sortTsDesc m).drop 6).Pairwise
            (fun a b => b.1 < a.1) := by
          rw [List.take_append_drop]
          exact hstrict
        have hcross : ∀ z ∈ (sortTsDesc m).take 6, y.1 < z.1 := fun z hz =>
          (List.pairwise_append.mp hstrict2).2.2 z hz y hydrop
        have hlen7 : 6 < (sortTsDesc m).length := by
          have hne2 : 0 < ((sortTsDesc m).drop 6).length :=
            List.length_pos.mpr (List.ne_nil_of_mem hydrop)
          rw [List.length_drop] at hne2
          omega
        have hlen : ((sortTsDesc m).take 6).length = 6 := by
          rw [List.length_take]
          omega
        have hfull : ((sortTsDesc m).take 6).filter (fun z => decide (x.1 < z.1)) =
            (sortTsDesc m).take 6 :=
          List.filter_eq_self.mpr (fun z hz =>
            decide_eq_true (lt_trans hlt (hcross z hz)))
        have hc66 : cGT ((sortTsDesc m).take 6) x = 6 := by
          rw [cGT, hfull, hlen]
        omega
      have hmle : cGT m x ≤ cGT ((sortTsDesc m).take 6) x := by
        have hsubf : (m.filter (fun y => decide (x.1 < y.1))) ⊆
            (((sortTsDesc m).take 6).filter (fun y => decide (x.1 < y.1))) := by
          intro y hy
          have hym := List.mem_filter.mp hy
          exact List.mem_filter.mpr
            ⟨hall y hym.1 (of_decide_eq_true hym.2), hym.2⟩
        have hndm : (m.filter (fun y => decide (x.1 < y.1))).Nodup :=
          (List.Nodup.of_map Prod.fst hm).filter _
        exact (hndm.subperm hsubf).length_le
      refine ⟨?_, by omega⟩
      rcases List.mem_append.mp hmem with h1 | h1
      · exact List.mem_append.mpr (Or.inl (ht6mem x h1))
      · exact List.mem_append.mpr (Or.inr h1)
    · rintro ⟨hmem, hcnt⟩
      have ht6le : cGT ((sortTsDesc m).take 6) x ≤ cGT m x :=
        le_of_le_of_eq (cGT_sublist ht6sub x) (cGT_perm (sortTsDesc_perm m) x)
      refine ⟨?_, by omega⟩
      rcases List.mem_append.mp hmem with h1 | h1
      · refine List.mem_append.mpr (Or.inl ?_)
        exact (mem_top_take m hm 6 x).mpr
          ⟨h1, lt_of_le_of_lt (Nat.le_add_right _ _) hcnt⟩
      · exact List.mem_append.mpr (Or.inr h1)
  have hnodupL : ((sortTsDesc (((sortTsDesc m).take 6) ++ l)).take 6).Nodup :=
    List.Nodup.of_map Prod.fst (keys_nodup_sort_take _ 6 hkeys_t6l)
  have hnodupR : ((sortTsDesc (m ++ l)).take 6).Nodup :=
    List.Nodup.of_map Prod.fst (keys_nodup_sort_take _ 6 h)
  apply eq_of_perm_sorted_strict
  · rw [List.perm_ext_iff_of_nodup hnodupL hnodupR]
    intro a
    exact (memL a).trans ((hiff a).trans (memR a).symm)
  · exact sorted_strict_of_nodup _
      (List.Pairwise.sublist (List.take_sublist 6 _) (sortTsDesc_sorted _))
      (keys_nodup_sort_take _ 6 hkeys_t6l)
  · exact sorted_strict_of_nodup _
      (List.Pairwise.sublist (List.take_sublist 6 _) (sortTsDesc_sorted _))
      (keys_nodup_sort_take _ 6 h)

theorem feedRun_eq_top {α : Type} (l : List (ℕ × α))
    (h : (l.map Prod.fst).Nodup) : feedRun l = (sortTsDesc l).take 6 := by
  induction l using List.reverseRecOn with
  | nil => rfl
  | append_singleton t x ih =>
    have hkt : (t.map Prod.fst).Nodup := by
      rw [List.map_append, List.nodup_append] at h
      exact h.1
    unfold feedRun
    rw [List.foldl_concat]
    have hstep : List.foldl last_posts_append [] t = feedRun t := rfl
    rw [hstep, ih hkt]
    exact top_take_truncate t [x] h

/-- C6: after every sequence of offers the feed holds at most 6 entries,
ordered by publish timestamp descending; and offering 10 entries with
pairwise distinct timestamps yields exactly the 6 highest-timestamp
entries in descending order, that is, the first 6 entries of the
timestamp-descending sort of all offered entries. -/
theorem feed_bounded_sorted_top6 {α : Type} :
    (∀ entries : List (ℕ × α), (feedRun entries).length ≤ 6 ∧
      (feedRun entries).Pairwise (fun a b => b.1 ≤ a.1)) ∧
    ∀ entries : List (ℕ × α), entries.length = 10 →
      (entries.map Prod.fst).Nodup →
      feedRun entries = (sortTsDesc entries).take 6 ∧ (feedRun entries).length = 6 := by
  constructor
  · intro entries
    induction entries using List.reverseRecOn with
    | nil => simp [feedRun]
    | append_singleton t x _ =>
      unfold feedRun
      rw [List.foldl_concat]
      constructor
      · exact List.length_take_le 6 _
      · exact List.Pairwise.sublist (List.take_sublist 6 _) (sortTsDesc_sorted _)
  · intro entries hlen hnd
    have heq := feedRun_eq_top entries hnd
    refine ⟨heq, ?_⟩
    rw [heq, List.length_take, (sortTsDesc_perm entries).length_eq, hlen]
    rfl

theorem feed_bounded_sorted_top6_witness :
    ([(2, 0), (9, 1), (4, 2), (7, 3), (0, 4), (5, 5), (1, 6), (8, 7), (3, 8), (6, 9)] :
        List (ℕ × ℕ)).length = 10 ∧
      (([(2, 0), (9, 1), (4, 2), (7, 3), (0, 4), (5, 5), (1, 6), (8, 7), (3, 8), (6, 9)] :
        List (ℕ × ℕ)).map Prod.fst).Nodup ∧
      (feedRun ([(2, 0), (9, 1), (4, 2), (7, 3), (0, 4), (5, 5), (1, 6), (8, 7), (3, 8),
          (6, 9)] : List (ℕ × ℕ)) =
        (sortTsDesc ([(2, 0), (9, 1), (4, 2), (7, 3), (0, 4), (5, 5), (1, 6), (8, 7), (3, 8),
          (6, 9)] : List (ℕ × ℕ))).take 6 ∧
        (feedRun ([(2, 0), (9, 1), (4, 2), (7, 3), (0, 4), (5, 5), (1, 6), (8, 7), (3, 8),
          (6, 9)] : List (ℕ × ℕ))).length = 6) :=
  ⟨by decide, by decide,
    feed_bounded_sorted_top6.2
      [(2, 0), (9, 1), (4, 2), (7, 3), (0, 4), (5, 5), (1, 6), (8, 7), (3, 8), (6, 9)]
      (by decide) (by decide)⟩
